import Mathlib

/-!
Shallow embedding of the `wordle-generator` repository (src/src/feistel.rs and
src/src/lib.rs) and proofs about it.

Machine integers (`u64`, `usize`) are modelled as `Nat` with explicit `% 2 ^ 64`
at the one place where a `u64` shift can truncate.  The WyHash round function
and the SHA-512 digest are external crates, not code of this repository; the
spec treats both as pluggable ("any PRF-quality keyed hash suffices", "the
exact key-derivation scheme ... is an implementation choice"), so they are
modelled as explicit function parameters `F` (round hash) and `sha` (digest),
and every theorem quantifies over them unless it exhibits a concrete instance.
Panics (`assert!`, division by zero, `rand` omitted) are modelled by `Option`.
-/

/-- Number of Feistel rounds (`pub const ROUNDS: usize = 8` in feistel.rs). -/
def ROUNDS : Nat := 8

/-- The Feistel network state of feistel.rs: round keys (a `[u64; ROUNDS]`,
modelled as a list of eight 64-bit values), the shift that extracts the upper
half, and the mask that extracts the lower half. -/
structure FeistelNetwork where
  keys : List Nat
  upper_shift : Nat
  lower_mask : Nat
deriving DecidableEq, Repr

/-- `FeistelNetwork::round`: hash `lower` under a hash keyed by `key`
(`WyHash::with_seed(key)` feeding `lower`, modelled by the parameter `F`)
and keep only the lower-half bits (`hasher.finish() & self.lower_mask`). -/
def FeistelNetwork.round (F : Nat → Nat → Nat) (net : FeistelNetwork)
    (lower key : Nat) : Nat :=
  F lower key &&& net.lower_mask

/-- `FeistelNetwork::permute`: split the input into halves, run `ROUNDS`
Feistel rounds over the round keys in order, and recombine
(`lower << self.upper_shift | upper`; the shift is a `u64` shift, hence
the `% 2 ^ 64`). -/
def FeistelNetwork.permute (F : Nat → Nat → Nat) (net : FeistelNetwork)
    (input : Nat) : Nat :=
  let p := net.keys.foldl
    (fun (p : Nat × Nat) key => (p.2, p.1 ^^^ net.round F p.2 key))
    (input >>> net.upper_shift, input &&& net.lower_mask)
  ((p.2 <<< net.upper_shift) % 2 ^ 64) ||| p.1

/-- `FeistelNetwork::with_keys`: validates `0 < bit_len && bit_len <= 64` and
`bit_len % 2 == 0` (the two `assert!`s, modelled as `none` on failure), then
derives `upper_shift = bit_len / 2` and `lower_mask = (1 << upper_shift) - 1`. -/
def FeistelNetwork.with_keys (bit_len : Nat) (keys : List Nat) :
    Option FeistelNetwork :=
  if 0 < bit_len ∧ bit_len ≤ 64 ∧ bit_len % 2 = 0 then
    some { keys := keys
           upper_shift := bit_len / 2
           lower_mask := (1 <<< (bit_len / 2)) - 1 }
  else none

/-- `FeistelNetwork::bit_len_for`: `usize::BITS - domain_size.leading_zeros()`
is the bit length of `domain_size` (`Nat.size` agrees with it on the whole
64-bit `usize` range), incremented by one when odd ("balance").  The
`assert!(domain_size > 0)` is modelled as `none`. -/
def FeistelNetwork.bit_len_for (domain_size : Nat) : Option Nat :=
  if domain_size = 0 then none
  else
    let len := Nat.size domain_size
    some (if len % 2 = 1 then len + 1 else len)

/-- Modelled from the spec: `for_domain(domain_size)` is called by
`Wordle::from_seed` in lib.rs but its body is not among the source files;
per the spec it builds the engine for the minimal balanced bit width
(`bit_len_for`) with all round keys initialised to zero (the deterministic
constructor variant; the keys are overwritten before first use). -/
def FeistelNetwork.for_domain (domain_size : Nat) : Option FeistelNetwork :=
  (FeistelNetwork.bit_len_for domain_size).bind fun b =>
    FeistelNetwork.with_keys b (List.replicate ROUNDS 0)

/-- The generator state of lib.rs: the borrowed word list, the window length,
the 32-byte seed, the SHA-512 hasher (modelled by the list of bytes absorbed
since the last reset; `Sha512::new()` is the empty list), and the engine. -/
structure Wordle where
  words : List String
  window_len : Nat
  seed : List Nat
  hasher : List Nat
  network : FeistelNetwork
deriving DecidableEq, Repr

/-- `Wordle::from_seed`: stores the inputs, a fresh SHA-512 hasher and the
engine built by `FeistelNetwork::for_domain(words.len())`. -/
def Wordle.from_seed (words : List String) (window_len : Nat)
    (seed : List Nat) : Option Wordle :=
  (FeistelNetwork.for_domain words.length).map fun net =>
    { words := words
      window_len := window_len
      seed := seed
      hasher := []
      network := net }

/-- Little-endian byte encoding of a `u64` (`window.to_ne_bytes()` on the
little-endian targets the crate runs on); `len` is the byte count. -/
def natToBytesLE : Nat → Nat → List Nat
  | 0, _ => []
  | len + 1, v => v % 256 :: natToBytesLE len (v / 256)

/-- Little-endian reassembly of a byte list into a natural number. -/
def bytesToNatLE : List Nat → Nat
  | [] => 0
  | b :: bs => b % 256 + 256 * bytesToNatLE bs

/-- `bytes_of_mut(self.network.keys_mut())`: the 64 digest bytes reinterpreted
as eight native-endian (little-endian) `u64` round keys, in order. -/
def toKeys (bs : List Nat) : List Nat :=
  (List.range ROUNDS).map fun i => bytesToNatLE ((bs.drop (8 * i)).take 8)

/-- `Wordle::update_window`: absorb the seed and the native-endian window
bytes into the hasher, then `finalize_into_reset` writes the digest over the
round-key array (via `keys_mut`) and resets the hasher to its fresh state. -/
def Wordle.update_window (sha : List Nat → List Nat) (gen : Wordle)
    (window : Nat) : Wordle :=
  { gen with
      hasher := []
      network := { gen.network with
        keys := toKeys (sha (gen.hasher ++ gen.seed ++ natToBytesLE 8 window)) } }

/-- The `while idx >= self.words.len()` loop of `Wordle::get`, with an explicit
step budget `fuel`: each step checks whether the index is in range and
otherwise re-applies the permutation.  The unbounded source loop produces a
value exactly when some budget suffices. -/
def cycleWalk (P : Nat → Nat) (N : Nat) : Nat → Nat → Option Nat
  | 0, _ => none
  | fuel + 1, idx => if idx < N then some idx else cycleWalk P N fuel (P idx)

/-- `Wordle::get` up to the final list indexing: computes the window
(`day / self.window_len`, a division-by-zero panic when the window length is
zero, modelled as `none`), rekeys via `update_window`, and cycle-walks
`permute` starting from `permute(day % self.window_len)`.  Returns the
mutated generator state and the chosen list index. -/
def Wordle.getIdx (F : Nat → Nat → Nat) (sha : List Nat → List Nat)
    (gen : Wordle) (fuel day : Nat) : Wordle × Option Nat :=
  if gen.window_len = 0 then (gen, none)
  else
    let window := day / gen.window_len
    let gen' := gen.update_window sha window
    let local_day := day % gen.window_len
    (gen', cycleWalk (gen'.network.permute F) gen'.words.length fuel
      (gen'.network.permute F local_day))

/-- `Wordle::get`: the walked index selects the word (`self.words[idx]`). -/
def Wordle.get (F : Nat → Nat → Nat) (sha : List Nat → List Nat)
    (gen : Wordle) (fuel day : Nat) : Wordle × Option String :=
  let r := gen.getIdx F sha fuel day
  (r.1, r.2.bind fun idx => r.1.words.get? idx)

/-! ## Concrete instances used by witnesses and counterexamples -/

/-- A simple concrete round hash standing in for WyHash in witnesses. -/
def testF : Nat → Nat → Nat := fun lower key => lower + key

/-- A concrete digest function standing in for SHA-512 in witnesses. -/
def testSha : List Nat → List Nat := fun _ => List.replicate 64 0

/-- An adversarial round hash (multiplication by the key). -/
def advF : Nat → Nat → Nat := fun lower key => lower * key

/-- Digest bytes that decode to the round keys `[1,1,0,0,0,0,0,0]`. -/
def advBytes : List Nat := [1, 0, 0, 0, 0, 0, 0, 0, 1] ++ List.replicate 55 0

/-- An adversarial digest function: every window derives `advBytes`. -/
def advSha : List Nat → List Nat := fun _ => advBytes

/-- The all-zero 32-byte seed used by the repository's tests. -/
def seed0 : List Nat := List.replicate 32 0

/-- The generator produced by `from_seed(["a"], 4, seed0)`. -/
def genAdv : Wordle :=
  { words := ["a"], window_len := 4, seed := seed0, hasher := []
    network := { keys := List.replicate 8 0, upper_shift := 1, lower_mask := 1 } }

/-- The generator produced by `from_seed(["a"], 0, seed0)`. -/
def genZW : Wordle :=
  { words := ["a"], window_len := 0, seed := seed0, hasher := []
    network := { keys := List.replicate 8 0, upper_shift := 1, lower_mask := 1 } }

/-! ## The Feistel round loop -/

/-- The `for i in 0..ROUNDS` loop body of `permute`, folded over an arbitrary
key list from an arbitrary `(upper, lower)` state. -/
def runRounds (F : Nat → Nat → Nat) (net : FeistelNetwork) (ks : List Nat)
    (init : Nat × Nat) : Nat × Nat :=
  ks.foldl (fun (p : Nat × Nat) key => (p.2, p.1 ^^^ net.round F p.2 key)) init

theorem permute_eq_runRounds (F : Nat → Nat → Nat) (net : FeistelNetwork)
    (input : Nat) :
    net.permute F input =
      (runRounds F net net.keys
          (input >>> net.upper_shift, input &&& net.lower_mask)).2
        <<< net.upper_shift % 2 ^ 64 |||
      (runRounds F net net.keys
          (input >>> net.upper_shift, input &&& net.lower_mask)).1 := rfl

theorem round_le_mask (F : Nat → Nat → Nat) (net : FeistelNetwork)
    (lower key : Nat) : net.round F lower key ≤ net.lower_mask :=
  Nat.and_le_right

theorem runRounds_lt (F : Nat → Nat → Nat) (net : FeistelNetwork)
    (hm : net.lower_mask = 2 ^ net.upper_shift - 1) :
    ∀ (ks : List Nat) (p : Nat × Nat),
      p.1 < 2 ^ net.upper_shift → p.2 < 2 ^ net.upper_shift →
      (runRounds F net ks p).1 < 2 ^ net.upper_shift ∧
        (runRounds F net ks p).2 < 2 ^ net.upper_shift := by
  intro ks
  induction ks with
  | nil => exact fun p h1 h2 => ⟨h1, h2⟩
  | cons k ks ih =>
      intro p h1 h2
      have hr : net.round F p.2 k < 2 ^ net.upper_shift := by
        have := round_le_mask F net p.2 k
        have hmask : net.lower_mask < 2 ^ net.upper_shift := by
          rw [hm]; exact Nat.sub_lt (Nat.two_pow_pos _) Nat.one_pos
        omega
      exact ih (p.2, p.1 ^^^ net.round F p.2 k) h2 (Nat.xor_lt_two_pow h1 hr)

theorem runRounds_inj (F : Nat → Nat → Nat) (net : FeistelNetwork) :
    ∀ (ks : List Nat) (p q : Nat × Nat),
      runRounds F net ks p = runRounds F net ks q → p = q := by
  intro ks
  induction ks with
  | nil => exact fun p q h => h
  | cons k ks ih =>
      intro p q h
      have hstep := ih _ _ h
      have h2 : p.2 = q.2 := congrArg Prod.fst hstep
      have h1 : p.1 ^^^ net.round F p.2 k = q.1 ^^^ net.round F q.2 k :=
        congrArg Prod.snd hstep
      rw [h2] at h1
      have : p.1 = q.1 := by
        have := congrArg (· ^^^ net.round F q.2 k) h1
        simpa [Nat.xor_assoc] using this
      exact Prod.ext this h2

theorem shiftLeft_or_eq_add (s l u : Nat) (hu : u < 2 ^ s) :
    l <<< s ||| u = l * 2 ^ s + u := by
  rw [Nat.shiftLeft_eq, Nat.mul_comm, ← Nat.mul_add_lt_is_or hu, Nat.mul_comm]

/-! ## Bijectivity of `permute` on its domain -/

/-- The shape `with_keys` gives the engine, together with the validated
bounds on the bit length. -/
theorem with_keys_eq {b : Nat} {keys : List Nat} {net : FeistelNetwork}
    (h : FeistelNetwork.with_keys b keys = some net) :
    0 < b ∧ b ≤ 64 ∧ b % 2 = 0 ∧
      net = ⟨keys, b / 2, 2 ^ (b / 2) - 1⟩ := by
  unfold FeistelNetwork.with_keys at h
  split at h
  · rename_i hc
    refine ⟨hc.1, hc.2.1, hc.2.2, ?_⟩
    have := (Option.some.injEq _ _).mp h
    rw [← this, Nat.one_shiftLeft]
  · exact absurd h (by simp)

theorem lower_half_lt (net : FeistelNetwork)
    (hm : net.lower_mask = 2 ^ net.upper_shift - 1) (x : Nat) :
    x &&& net.lower_mask < 2 ^ net.upper_shift := by
  rw [hm]
  exact Nat.and_lt_two_pow x (Nat.sub_lt (Nat.two_pow_pos _) Nat.one_pos)

theorem upper_half_lt (net : FeistelNetwork) {x : Nat}
    (hx : x < 2 ^ (2 * net.upper_shift)) :
    x >>> net.upper_shift < 2 ^ net.upper_shift := by
  rw [Nat.shiftRight_eq_div_pow]
  rw [Nat.div_lt_iff_lt_mul (Nat.two_pow_pos net.upper_shift)]
  calc x < 2 ^ (2 * net.upper_shift) := hx
    _ = 2 ^ net.upper_shift * 2 ^ net.upper_shift := by
        rw [← Nat.pow_add]; ring_nf

/-- On an in-range input, `permute` is split / eight rounds / recombine,
with the recombination written arithmetically. -/
theorem permute_closed_form (F : Nat → Nat → Nat) (net : FeistelNetwork)
    (hm : net.lower_mask = 2 ^ net.upper_shift - 1)
    (hs : 2 * net.upper_shift ≤ 64) {input : Nat}
    (hx : input < 2 ^ (2 * net.upper_shift)) :
    net.permute F input =
      (runRounds F net net.keys
          (input >>> net.upper_shift, input &&& net.lower_mask)).2
        * 2 ^ net.upper_shift +
      (runRounds F net net.keys
          (input >>> net.upper_shift, input &&& net.lower_mask)).1 := by
  have hb := runRounds_lt F net hm net.keys
    (input >>> net.upper_shift, input &&& net.lower_mask)
    (upper_half_lt net hx) (lower_half_lt net hm input)
  rw [permute_eq_runRounds]
  have hlt : (runRounds F net net.keys
      (input >>> net.upper_shift, input &&& net.lower_mask)).2
        <<< net.upper_shift < 2 ^ 64 := by
    rw [Nat.shiftLeft_eq]
    calc (runRounds F net net.keys
        (input >>> net.upper_shift, input &&& net.lower_mask)).2
          * 2 ^ net.upper_shift
        < 2 ^ net.upper_shift * 2 ^ net.upper_shift :=
          Nat.mul_lt_mul_of_lt_of_le hb.2 (Nat.le_refl _) (Nat.two_pow_pos _)
      _ = 2 ^ (2 * net.upper_shift) := by rw [← Nat.pow_add]; ring_nf
      _ ≤ 2 ^ 64 := Nat.pow_le_pow_right (by omega) hs
  rw [Nat.mod_eq_of_lt hlt, shiftLeft_or_eq_add _ _ _ hb.1]

theorem permute_lt (F : Nat → Nat → Nat) (net : FeistelNetwork)
    (hm : net.lower_mask = 2 ^ net.upper_shift - 1)
    (hs : 2 * net.upper_shift ≤ 64) {input : Nat}
    (hx : input < 2 ^ (2 * net.upper_shift)) :
    net.permute F input < 2 ^ (2 * net.upper_shift) := by
  rw [permute_closed_form F net hm hs hx]
  have hb := runRounds_lt F net hm net.keys
    (input >>> net.upper_shift, input &&& net.lower_mask)
    (upper_half_lt net hx) (lower_half_lt net hm input)
  have h2s : 2 ^ (2 * net.upper_shift) =
      2 ^ net.upper_shift * 2 ^ net.upper_shift := by
    rw [← Nat.pow_add]; ring_nf
  rw [h2s]
  calc (runRounds F net net.keys
      (input >>> net.upper_shift, input &&& net.lower_mask)).2
        * 2 ^ net.upper_shift +
      (runRounds F net net.keys
          (input >>> net.upper_shift, input &&& net.lower_mask)).1
      < (runRounds F net net.keys
          (input >>> net.upper_shift, input &&& net.lower_mask)).2
          * 2 ^ net.upper_shift + 2 ^ net.upper_shift := by omega
    _ = ((runRounds F net net.keys
          (input >>> net.upper_shift, input &&& net.lower_mask)).2 + 1)
          * 2 ^ net.upper_shift := by ring
    _ ≤ 2 ^ net.upper_shift * 2 ^ net.upper_shift :=
        Nat.mul_le_mul_right _ hb.2

theorem permute_injOn (F : Nat → Nat → Nat) (net : FeistelNetwork)
    (hm : net.lower_mask = 2 ^ net.upper_shift - 1)
    (hs : 2 * net.upper_shift ≤ 64) :
    Set.InjOn (net.permute F) (Set.Iio (2 ^ (2 * net.upper_shift))) := by
  intro x hx y hy heq
  rw [Set.mem_Iio] at hx hy
  rw [permute_closed_form F net hm hs hx,
      permute_closed_form F net hm hs hy] at heq
  have hbx := runRounds_lt F net hm net.keys
    (x >>> net.upper_shift, x &&& net.lower_mask)
    (upper_half_lt net hx) (lower_half_lt net hm x)
  have hby := runRounds_lt F net hm net.keys
    (y >>> net.upper_shift, y &&& net.lower_mask)
    (upper_half_lt net hy) (lower_half_lt net hm y)
  have hpair : runRounds F net net.keys
      (x >>> net.upper_shift, x &&& net.lower_mask) =
      runRounds F net net.keys
        (y >>> net.upper_shift, y &&& net.lower_mask) := by
    have h1 : (runRounds F net net.keys
        (x >>> net.upper_shift, x &&& net.lower_mask)).1 =
        (runRounds F net net.keys
          (y >>> net.upper_shift, y &&& net.lower_mask)).1 := by
      have e1 : ((runRounds F net net.keys
          (x >>> net.upper_shift, x &&& net.lower_mask)).2
            * 2 ^ net.upper_shift +
          (runRounds F net net.keys
            (x >>> net.upper_shift, x &&& net.lower_mask)).1)
            % 2 ^ net.upper_shift =
          (runRounds F net net.keys
            (x >>> net.upper_shift, x &&& net.lower_mask)).1 := by
        rw [Nat.mul_add_mod_of_lt hbx.1]
      have e2 : ((runRounds F net net.keys
          (y >>> net.upper_shift, y &&& net.lower_mask)).2
            * 2 ^ net.upper_shift +
          (runRounds F net net.keys
            (y >>> net.upper_shift, y &&& net.lower_mask)).1)
            % 2 ^ net.upper_shift =
          (runRounds F net net.keys
            (y >>> net.upper_shift, y &&& net.lower_mask)).1 := by
        rw [Nat.mul_add_mod_of_lt hby.1]
      rw [← e1, ← e2, heq]
    have h2 : (runRounds F net net.keys
        (x >>> net.upper_shift, x &&& net.lower_mask)).2 =
        (runRounds F net net.keys
          (y >>> net.upper_shift, y &&& net.lower_mask)).2 := by
      have hp := Nat.two_pow_pos net.upper_shift
      rw [h1] at heq
      have := Nat.add_right_cancel heq
      exact Nat.eq_of_mul_eq_mul_right hp this
    exact Prod.ext h1 h2
  have hsplit := runRounds_inj F net net.keys _ _ hpair
  have hu : x >>> net.upper_shift = y >>> net.upper_shift :=
    congrArg Prod.fst hsplit
  have hl : x &&& net.lower_mask = y &&& net.lower_mask :=
    congrArg Prod.snd hsplit
  rw [Nat.shiftRight_eq_div_pow, Nat.shiftRight_eq_div_pow] at hu
  rw [hm, Nat.and_pow_two_sub_one_eq_mod, Nat.and_pow_two_sub_one_eq_mod] at hl
  have dx := Nat.div_add_mod x (2 ^ net.upper_shift)
  have dy := Nat.div_add_mod y (2 ^ net.upper_shift)
  have hmu : 2 ^ net.upper_shift * (x / 2 ^ net.upper_shift) =
      2 ^ net.upper_shift * (y / 2 ^ net.upper_shift) := by rw [hu]
  omega

theorem permute_image (F : Nat → Nat → Nat) (net : FeistelNetwork)
    (hm : net.lower_mask = 2 ^ net.upper_shift - 1)
    (hs : 2 * net.upper_shift ≤ 64) :
    (Finset.range (2 ^ (2 * net.upper_shift))).image (net.permute F) =
      Finset.range (2 ^ (2 * net.upper_shift)) := by
  apply Finset.eq_of_subset_of_card_le
  · intro y hy
    obtain ⟨x, hx, rfl⟩ := Finset.mem_image.mp hy
    exact Finset.mem_range.mpr
      (permute_lt F net hm hs (Finset.mem_range.mp hx))
  · rw [Finset.card_image_of_injOn]
    rw [Finset.coe_range]
    exact permute_injOn F net hm hs

theorem permute_bijOn (F : Nat → Nat → Nat) (net : FeistelNetwork)
    (hm : net.lower_mask = 2 ^ net.upper_shift - 1)
    (hs : 2 * net.upper_shift ≤ 64) :
    Set.BijOn (net.permute F) (Set.Iio (2 ^ (2 * net.upper_shift)))
      (Set.Iio (2 ^ (2 * net.upper_shift))) := by
  refine ⟨fun x hx => Set.mem_Iio.mpr (permute_lt F net hm hs hx),
    permute_injOn F net hm hs, ?_⟩
  intro y hy
  have : y ∈ (Finset.range (2 ^ (2 * net.upper_shift))).image
      (net.permute F) := by
    rw [permute_image F net hm hs]
    exact Finset.mem_range.mpr (Set.mem_Iio.mp hy)
  obtain ⟨x, hx, hxy⟩ := Finset.mem_image.mp this
  exact ⟨x, Set.mem_Iio.mpr (Finset.mem_range.mp hx), hxy⟩

/-- C1: for every even bit width `b` with `0 < b ≤ 64`, every 8-element
round-key array and every round hash, the engine built by `with_keys`
permutes `[0, 2^b)` bijectively: applying it to every value of `[0, 2^b)`
yields each value of `[0, 2^b)` exactly once, regardless of the key values. -/
theorem permute_bijective (F : Nat → Nat → Nat) (b : Nat) (keys : List Nat)
    (net : FeistelNetwork) (hb : b % 2 = 0) (h0 : 0 < b) (h64 : b ≤ 64)
    (hlen : keys.length = ROUNDS)
    (hnet : FeistelNetwork.with_keys b keys = some net) :
    Set.BijOn (net.permute F) (Set.Iio (2 ^ b)) (Set.Iio (2 ^ b)) := by
  obtain ⟨-, -, -, rfl⟩ := with_keys_eq hnet
  have hdiv : 2 * (b / 2) = b := by omega
  have hbij := permute_bijOn F ⟨keys, b / 2, 2 ^ (b / 2) - 1⟩ rfl
    (by show 2 * (b / 2) ≤ 64; omega)
  have hproj : (FeistelNetwork.mk keys (b / 2) (2 ^ (b / 2) - 1)).upper_shift
      = b / 2 := rfl
  rw [hproj, hdiv] at hbij
  exact hbij

theorem permute_bijective_witness :
    Set.BijOn ((FeistelNetwork.mk [1, 2, 3, 4, 5, 6, 7, 8] 1 1).permute testF)
      (Set.Iio (2 ^ 2)) (Set.Iio (2 ^ 2)) :=
  permute_bijective testF 2 [1, 2, 3, 4, 5, 6, 7, 8] _ (by decide) (by decide)
    (by decide) (by decide) (by decide)

/-! ## Orbits of an injective self-map of `[0, M)` -/

theorem iterate_lt (P : Nat → Nat) (M : Nat)
    (hmaps : ∀ x, x < M → P x < M) :
    ∀ (k x : Nat), x < M → P^[k] x < M := by
  intro k
  induction k with
  | zero => exact fun x hx => hx
  | succ k ih =>
      intro x hx
      rw [Function.iterate_succ_apply]
      exact ih (P x) (hmaps x hx)

theorem iterate_cancel (P : Nat → Nat) (M : Nat)
    (hmaps : ∀ x, x < M → P x < M)
    (hinj : ∀ x y, x < M → y < M → P x = P y → x = y) :
    ∀ (k x y : Nat), x < M → y < M → P^[k] x = P^[k] y → x = y := by
  intro k
  induction k with
  | zero => exact fun x y _ _ h => h
  | succ k ih =>
      intro x y hx hy h
      rw [Function.iterate_succ_apply, Function.iterate_succ_apply] at h
      exact hinj x y hx hy (ih (P x) (P y) (hmaps x hx) (hmaps y hy) h)

theorem exists_iterate_return (P : Nat → Nat) (M : Nat)
    (hmaps : ∀ x, x < M → P x < M)
    (hinj : ∀ x y, x < M → y < M → P x = P y → x = y)
    (x : Nat) (hx : x < M) :
    ∃ m, 0 < m ∧ m ≤ M ∧ P^[m] x = x := by
  have hc : (Finset.range M).card < (Finset.range (M + 1)).card := by
    simp
  have hf : ∀ a ∈ Finset.range (M + 1), P^[a] x ∈ Finset.range M :=
    fun a _ => Finset.mem_range.mpr (iterate_lt P M hmaps a x hx)
  obtain ⟨i, hi, j, hj, hne, hij⟩ :=
    Finset.exists_ne_map_eq_of_card_lt_of_maps_to hc hf
  have key : ∀ i j, i < j → j < M + 1 → P^[i] x = P^[j] x →
      ∃ m, 0 < m ∧ m ≤ M ∧ P^[m] x = x := by
    intro i j hlt hjM heq
    have hadd : P^[j] x = P^[i] (P^[j - i] x) := by
      rw [← Function.iterate_add_apply]
      congr 1
      omega
    rw [hadd] at heq
    have := iterate_cancel P M hmaps hinj i x (P^[j - i] x) hx
      (iterate_lt P M hmaps (j - i) x hx) heq
    exact ⟨j - i, by omega, by omega, this.symm⟩
  rcases Nat.lt_or_ge i j with hlt | hge
  · exact key i j hlt (Finset.mem_range.mp hj) hij
  · have hlt : j < i := by
      rcases Nat.lt_or_ge j i with h | h
      · exact h
      · exact absurd (Nat.le_antisymm hge h) (Ne.symm hne)
    exact key j i hlt (Finset.mem_range.mp hi) hij.symm

/-! ## The cycle walk -/

theorem cycleWalk_reaches (P : Nat → Nat) (N : Nat) :
    ∀ (fuel x : Nat), (∃ k, k < fuel ∧ P^[k] x < N) →
      ∃ y, cycleWalk P N fuel x = some y := by
  intro fuel
  induction fuel with
  | zero => exact fun x ⟨k, hk, _⟩ => absurd hk (Nat.not_lt_zero k)
  | succ fuel ih =>
      intro x ⟨k, hk, hlt⟩
      by_cases hx : x < N
      · exact ⟨x, by simp [cycleWalk, hx]⟩
      · have hk0 : k ≠ 0 := by
          intro h
          rw [h] at hlt
          exact hx hlt
        obtain ⟨k', rfl⟩ := Nat.exists_eq_succ_of_ne_zero hk0
        rw [Function.iterate_succ_apply] at hlt
        obtain ⟨y, hy⟩ := ih (P x) ⟨k', by omega, hlt⟩
        exact ⟨y, by simp [cycleWalk, hx, hy]⟩

theorem cycleWalk_spec (P : Nat → Nat) (N : Nat) :
    ∀ (fuel x y : Nat), cycleWalk P N fuel x = some y →
      ∃ k, k < fuel ∧ y = P^[k] x ∧ y < N ∧ ∀ j, j < k → N ≤ P^[j] x := by
  intro fuel
  induction fuel with
  | zero => intro x y h; exact absurd h (by simp [cycleWalk])
  | succ fuel ih =>
      intro x y h
      by_cases hx : x < N
      · rw [show cycleWalk P N (fuel + 1) x = some x by
          simp [cycleWalk, hx]] at h
        refine ⟨0, Nat.succ_pos fuel, ?_, ?_, fun j hj => absurd hj (by omega)⟩
        · exact ((Option.some.injEq _ _).mp h).symm
        · rw [← (Option.some.injEq _ _).mp h]; exact hx
      · rw [show cycleWalk P N (fuel + 1) x = cycleWalk P N fuel (P x) by
          simp [cycleWalk, hx]] at h
        obtain ⟨k, hk, hky, hyN, hfirst⟩ := ih (P x) y h
        refine ⟨k + 1, by omega, ?_, hyN, ?_⟩
        · rw [Function.iterate_succ_apply]; exact hky
        · intro j hj
          match j with
          | 0 => exact Nat.le_of_not_lt hx
          | j + 1 =>
              rw [Function.iterate_succ_apply]
              exact hfirst j (by omega)

/-- With enough fuel (the domain size), the walk started at `P r` for an
in-range `r < N ≤ M` reaches an in-range index. -/
theorem cycleWalk_total (P : Nat → Nat) (M N : Nat)
    (hmaps : ∀ x, x < M → P x < M)
    (hinj : ∀ x y, x < M → y < M → P x = P y → x = y)
    (hNM : N ≤ M) (r : Nat) (hr : r < N) (fuel : Nat) (hfuel : M ≤ fuel) :
    ∃ y, cycleWalk P N fuel (P r) = some y ∧ y < N := by
  obtain ⟨m, hm0, hmM, hmret⟩ :=
    exists_iterate_return P M hmaps hinj r (Nat.lt_of_lt_of_le hr hNM)
  have hhit : P^[m - 1] (P r) < N := by
    have : P^[m - 1] (P r) = P^[m] r := by
      rw [← Function.iterate_succ_apply]
      congr 1
      omega
    rw [this, hmret]
    exact hr
  obtain ⟨y, hy⟩ := cycleWalk_reaches P N fuel (P r) ⟨m - 1, by omega, hhit⟩
  obtain ⟨k, _, _, hyN, _⟩ := cycleWalk_spec P N fuel (P r) y hy
  exact ⟨y, hy, hyN⟩

/-- Two in-range starting points whose walks produce the same index are
equal: the walk is injective on `[0, N)`. -/
theorem cycleWalk_inj (P : Nat → Nat) (M N : Nat)
    (hmaps : ∀ x, x < M → P x < M)
    (hinj : ∀ x y, x < M → y < M → P x = P y → x = y)
    (hNM : N ≤ M) (r1 r2 y : Nat) (hr1 : r1 < N) (hr2 : r2 < N)
    (fuel1 fuel2 : Nat)
    (w1 : cycleWalk P N fuel1 (P r1) = some y)
    (w2 : cycleWalk P N fuel2 (P r2) = some y) : r1 = r2 := by
  obtain ⟨k1, -, hk1y, -, hfirst1⟩ := cycleWalk_spec P N fuel1 (P r1) y w1
  obtain ⟨k2, -, hk2y, -, hfirst2⟩ := cycleWalk_spec P N fuel2 (P r2) y w2
  have hy1 : y = P^[k1 + 1] r1 := by
    rw [Function.iterate_succ_apply]; exact hk1y
  have hy2 : y = P^[k2 + 1] r2 := by
    rw [Function.iterate_succ_apply]; exact hk2y
  have hmid1 : ∀ j, 0 < j → j < k1 + 1 → N ≤ P^[j] r1 := by
    intro j hj0 hjk
    obtain ⟨j', rfl⟩ := Nat.exists_eq_succ_of_ne_zero (Nat.pos_iff_ne_zero.mp hj0)
    rw [Function.iterate_succ_apply]
    exact hfirst1 j' (by omega)
  have hmid2 : ∀ j, 0 < j → j < k2 + 1 → N ≤ P^[j] r2 := by
    intro j hj0 hjk
    obtain ⟨j', rfl⟩ := Nat.exists_eq_succ_of_ne_zero (Nat.pos_iff_ne_zero.mp hj0)
    rw [Function.iterate_succ_apply]
    exact hfirst2 j' (by omega)
  have key : ∀ a b ma mb, a < N → b < N → 0 < ma → 0 < mb → ma ≤ mb →
      P^[ma] a = P^[mb] b → (∀ j, 0 < j → j < mb → N ≤ P^[j] b) → a = b := by
    intro a b ma mb haN hbN hma hmb hle heq hmid
    have hbM : P^[mb - ma] b < M :=
      iterate_lt P M hmaps (mb - ma) b (Nat.lt_of_lt_of_le hbN hNM)
    have hadd : P^[mb] b = P^[ma] (P^[mb - ma] b) := by
      rw [← Function.iterate_add_apply]
      congr 1
      omega
    rw [hadd] at heq
    have hab : a = P^[mb - ma] b :=
      iterate_cancel P M hmaps hinj ma a (P^[mb - ma] b)
        (Nat.lt_of_lt_of_le haN hNM) hbM heq
    rcases Nat.eq_zero_or_pos (mb - ma) with hd | hd
    · rw [hd] at hab
      exact hab
    · have : N ≤ P^[mb - ma] b := hmid (mb - ma) hd (by omega)
      rw [← hab] at this
      omega
  rcases Nat.le_total (k1 + 1) (k2 + 1) with hle | hle
  · exact key r1 r2 (k1 + 1) (k2 + 1) hr1 hr2 (by omega) (by omega) hle
      (by rw [← hy1, ← hy2]) hmid2
  · exact (key r2 r1 (k2 + 1) (k1 + 1) hr2 hr1 (by omega) (by omega) hle
      (by rw [← hy1, ← hy2]) hmid1).symm

/-! ## Construction facts -/

theorem bit_len_for_eq {n b : Nat}
    (h : FeistelNetwork.bit_len_for n = some b) :
    0 < n ∧ Nat.size n ≤ b ∧ b ≤ Nat.size n + 1 ∧ b % 2 = 0 := by
  unfold FeistelNetwork.bit_len_for at h
  split at h
  · exact absurd h (by simp)
  · rename_i hn
    have hb := (Option.some.injEq _ _).mp h
    refine ⟨Nat.pos_of_ne_zero hn, ?_⟩
    by_cases hp : Nat.size n % 2 = 1
    · rw [if_pos hp] at hb
      omega
    · rw [if_neg hp] at hb
      omega

theorem for_domain_eq {n : Nat} {net : FeistelNetwork}
    (h : FeistelNetwork.for_domain n = some net) :
    ∃ b, FeistelNetwork.bit_len_for n = some b ∧
      FeistelNetwork.with_keys b (List.replicate ROUNDS 0) = some net := by
  unfold FeistelNetwork.for_domain at h
  cases hb : FeistelNetwork.bit_len_for n with
  | none => rw [hb] at h; exact absurd h (by simp)
  | some b => rw [hb] at h; exact ⟨b, rfl, h⟩

theorem from_seed_eq {words : List String} {wl : Nat} {seed : List Nat}
    {gen : Wordle} (h : Wordle.from_seed words wl seed = some gen) :
    ∃ net, FeistelNetwork.for_domain words.length = some net ∧
      gen = ⟨words, wl, seed, [], net⟩ := by
  unfold Wordle.from_seed at h
  cases hn : FeistelNetwork.for_domain words.length with
  | none => rw [hn] at h; exact absurd h (by simp)
  | some net =>
      rw [hn] at h
      exact ⟨net, rfl, ((Option.some.injEq _ _).mp h).symm⟩

/-- All the facts about a successfully constructed generator that the
claims need: field values, a well-formed engine, and an engine domain that
strictly covers the word count. -/
theorem from_seed_spec {words : List String} {wl : Nat} {seed : List Nat}
    {gen : Wordle} (h : Wordle.from_seed words wl seed = some gen) :
    gen.words = words ∧ gen.window_len = wl ∧ gen.seed = seed ∧
    gen.hasher = [] ∧
    gen.network.lower_mask = 2 ^ gen.network.upper_shift - 1 ∧
    2 * gen.network.upper_shift ≤ 64 ∧
    0 < words.length ∧
    words.length < 2 ^ (2 * gen.network.upper_shift) := by
  obtain ⟨net, hfd, rfl⟩ := from_seed_eq h
  obtain ⟨b, hb, hwk⟩ := for_domain_eq hfd
  obtain ⟨hn0, hsz, _, heven⟩ := bit_len_for_eq hb
  obtain ⟨h0, h64, -, rfl⟩ := with_keys_eq hwk
  have hdiv : 2 * (b / 2) = b := by omega
  refine ⟨rfl, rfl, rfl, rfl, rfl, ?_, hn0, ?_⟩
  · show 2 * (b / 2) ≤ 64
    omega
  · show words.length < 2 ^ (2 * (b / 2))
    rw [hdiv]
    exact Nat.lt_of_lt_of_le (Nat.lt_size_self words.length)
      (Nat.pow_le_pow_right (by omega) hsz)

/-! ## Shape of a `get` call -/

theorem update_window_spec (sha : List Nat → List Nat) (gen : Wordle)
    (w : Nat) :
    (gen.update_window sha w).words = gen.words ∧
    (gen.update_window sha w).window_len = gen.window_len ∧
    (gen.update_window sha w).seed = gen.seed ∧
    (gen.update_window sha w).hasher = [] ∧
    (gen.update_window sha w).network.upper_shift =
      gen.network.upper_shift ∧
    (gen.update_window sha w).network.lower_mask =
      gen.network.lower_mask ∧
    (gen.update_window sha w).network.keys =
      toKeys (sha (gen.hasher ++ gen.seed ++ natToBytesLE 8 w)) :=
  ⟨rfl, rfl, rfl, rfl, rfl, rfl, rfl⟩

theorem getIdx_eq_walk (F : Nat → Nat → Nat) (sha : List Nat → List Nat)
    (gen : Wordle) (fuel day : Nat) (h : gen.window_len ≠ 0) :
    gen.getIdx F sha fuel day =
      (gen.update_window sha (day / gen.window_len),
        cycleWalk
          ((gen.update_window sha (day / gen.window_len)).network.permute F)
          gen.words.length fuel
          ((gen.update_window sha (day / gen.window_len)).network.permute F
            (day % gen.window_len))) := by
  unfold Wordle.getIdx
  rw [if_neg h]
  rfl

theorem getIdx_zero_window (F : Nat → Nat → Nat) (sha : List Nat → List Nat)
    (gen : Wordle) (fuel day : Nat) (h : gen.window_len = 0) :
    gen.getIdx F sha fuel day = (gen, none) := by
  unfold Wordle.getIdx
  rw [if_pos h]

/-- The fields of the generator state after a `get` call: everything except
the round keys and the hasher is untouched, and the hasher is reset (or, on
the division-by-zero path, untouched). -/
theorem getIdx_fst_spec (F : Nat → Nat → Nat) (sha : List Nat → List Nat)
    (gen : Wordle) (fuel day : Nat) :
    (gen.getIdx F sha fuel day).1.words = gen.words ∧
    (gen.getIdx F sha fuel day).1.window_len = gen.window_len ∧
    (gen.getIdx F sha fuel day).1.seed = gen.seed ∧
    (gen.getIdx F sha fuel day).1.network.upper_shift =
      gen.network.upper_shift ∧
    (gen.getIdx F sha fuel day).1.network.lower_mask =
      gen.network.lower_mask ∧
    (gen.hasher = [] → (gen.getIdx F sha fuel day).1.hasher = []) := by
  by_cases h : gen.window_len = 0
  · rw [getIdx_zero_window F sha gen fuel day h]
    exact ⟨rfl, rfl, rfl, rfl, rfl, fun hh => hh⟩
  · rw [getIdx_eq_walk F sha gen fuel day h]
    exact ⟨rfl, rfl, rfl, rfl, rfl, fun _ => rfl⟩

/-- The observable output of a `get` call does not depend on the round keys
held before the call (they are overwritten before being read), only on the
words, window length, seed, hasher residue and the engine geometry. -/
theorem getIdx_snd_congr (F : Nat → Nat → Nat) (sha : List Nat → List Nat)
    (g1 g2 : Wordle) (fuel day : Nat)
    (hw : g1.words = g2.words) (hl : g1.window_len = g2.window_len)
    (hs : g1.seed = g2.seed) (hh : g1.hasher = g2.hasher)
    (hu : g1.network.upper_shift = g2.network.upper_shift)
    (hm : g1.network.lower_mask = g2.network.lower_mask) :
    (g1.getIdx F sha fuel day).2 = (g2.getIdx F sha fuel day).2 := by
  by_cases h : g1.window_len = 0
  · rw [getIdx_zero_window F sha g1 fuel day h,
      getIdx_zero_window F sha g2 fuel day (hl ▸ h)]
  · have h2 : g2.window_len ≠ 0 := hl ▸ h
    rw [getIdx_eq_walk F sha g1 fuel day h,
      getIdx_eq_walk F sha g2 fuel day h2]
    have hnet : (g1.update_window sha (day / g1.window_len)).network =
        (g2.update_window sha (day / g2.window_len)).network := by
      have e1 : (g1.update_window sha (day / g1.window_len)).network =
          ⟨toKeys (sha (g1.hasher ++ g1.seed ++
            natToBytesLE 8 (day / g1.window_len))),
            g1.network.upper_shift, g1.network.lower_mask⟩ := rfl
      have e2 : (g2.update_window sha (day / g2.window_len)).network =
          ⟨toKeys (sha (g2.hasher ++ g2.seed ++
            natToBytesLE 8 (day / g2.window_len))),
            g2.network.upper_shift, g2.network.lower_mask⟩ := rfl
      rw [e1, e2, hs, hh, hu, hm, hl]
    show cycleWalk
        ((g1.update_window sha (day / g1.window_len)).network.permute F)
        g1.words.length fuel
        ((g1.update_window sha (day / g1.window_len)).network.permute F
          (day % g1.window_len)) =
      cycleWalk
        ((g2.update_window sha (day / g2.window_len)).network.permute F)
        g2.words.length fuel
        ((g2.update_window sha (day / g2.window_len)).network.permute F
          (day % g2.window_len))
    rw [hnet, hw, hl]

theorem get_snd_eq (F : Nat → Nat → Nat) (sha : List Nat → List Nat)
    (gen : Wordle) (fuel day : Nat) :
    (gen.get F sha fuel day).2 =
      (gen.getIdx F sha fuel day).2.bind
        (fun idx => (gen.getIdx F sha fuel day).1.words.get? idx) := rfl

/-- The generator used by several witnesses: `from_seed(["aa","bb"], 2, seed0)`. -/
def genW2 : Wordle :=
  { words := ["aa", "bb"], window_len := 2, seed := seed0, hasher := []
    network := { keys := List.replicate 8 0, upper_shift := 1, lower_mask := 1 } }

/-- Core termination argument shared by several claims: on a constructed
generator, a day whose local index is in range walks to an index within
`2 ^ bit_width` steps. -/
theorem getIdx_total_aux (F : Nat → Nat → Nat) (sha : List Nat → List Nat)
    (words : List String) (wl : Nat) (seed : List Nat) (gen : Wordle)
    (fuel day : Nat)
    (hgen : Wordle.from_seed words wl seed = some gen)
    (h0 : wl ≠ 0)
    (hloc : day % wl < words.length)
    (hfuel : 2 ^ (2 * gen.network.upper_shift) ≤ fuel) :
    ∃ i, (gen.getIdx F sha fuel day).2 = some i ∧ i < words.length ∧
      ∃ t, (gen.get F sha fuel day).2 = some t := by
  obtain ⟨hw, hl, -, -, hm, hs64, -, hnM⟩ := from_seed_spec hgen
  have hwl : gen.window_len ≠ 0 := by rw [hl]; exact h0
  have hm' : (gen.update_window sha (day / gen.window_len)).network.lower_mask
      = 2 ^ (gen.update_window sha
          (day / gen.window_len)).network.upper_shift - 1 := hm
  have hs64' : 2 * (gen.update_window sha
      (day / gen.window_len)).network.upper_shift ≤ 64 := hs64
  have hmaps : ∀ x, x < 2 ^ (2 * gen.network.upper_shift) →
      (gen.update_window sha (day / gen.window_len)).network.permute F x <
        2 ^ (2 * gen.network.upper_shift) :=
    fun x hx => permute_lt F _ hm' hs64' hx
  have hinj : ∀ x y, x < 2 ^ (2 * gen.network.upper_shift) →
      y < 2 ^ (2 * gen.network.upper_shift) →
      (gen.update_window sha (day / gen.window_len)).network.permute F x =
        (gen.update_window sha (day / gen.window_len)).network.permute F y →
      x = y :=
    fun x y hx hy hxy =>
      permute_injOn F _ hm' hs64' (Set.mem_Iio.mpr hx) (Set.mem_Iio.mpr hy) hxy
  obtain ⟨y, hy, hyN⟩ := cycleWalk_total
    ((gen.update_window sha (day / gen.window_len)).network.permute F)
    (2 ^ (2 * gen.network.upper_shift)) words.length hmaps hinj
    (Nat.le_of_lt hnM) (day % gen.window_len) (by rw [hl]; exact hloc)
    fuel hfuel
  have hNwords : gen.words.length = words.length := by rw [hw]
  have hidx : (gen.getIdx F sha fuel day).2 = some y := by
    rw [getIdx_eq_walk F sha gen fuel day hwl]
    show cycleWalk
      ((gen.update_window sha (day / gen.window_len)).network.permute F)
      gen.words.length fuel
      ((gen.update_window sha (day / gen.window_len)).network.permute F
        (day % gen.window_len)) = some y
    rw [hNwords]
    exact hy
  refine ⟨y, hidx, hyN, ?_⟩
  have hfw : (gen.getIdx F sha fuel day).1.words = gen.words :=
    (getIdx_fst_spec F sha gen fuel day).1
  cases hg : gen.words.get? y with
  | none =>
      have := List.get?_eq_none.mp hg
      omega
  | some t =>
      refine ⟨t, ?_⟩
      rw [get_snd_eq, hidx, Option.some_bind, hfw, hg]

/-- Computes `Nat.size` from its two characteristic bounds (the recursion
behind `Nat.size` does not reduce definitionally, so concrete instances are
evaluated through this lemma). -/
theorem size_value {n b : Nat} (hb : 0 < b) (h1 : 2 ^ (b - 1) ≤ n)
    (h2 : n < 2 ^ b) : Nat.size n = b := by
  have hle : Nat.size n ≤ b := Nat.size_le.mpr h2
  have hgt : b - 1 < Nat.size n := Nat.lt_size.mpr h1
  omega

theorem size_one_eq : Nat.size 1 = 1 :=
  size_value (by decide) (by decide) (by decide)

theorem size_two_eq : Nat.size 2 = 2 :=
  size_value (by decide) (by decide) (by decide)

theorem for_domain_one :
    FeistelNetwork.for_domain 1 = some ⟨List.replicate 8 0, 1, 1⟩ := by
  unfold FeistelNetwork.for_domain FeistelNetwork.bit_len_for
  rw [if_neg (by decide : ¬(1 : Nat) = 0)]
  show FeistelNetwork.with_keys (if Nat.size 1 % 2 = 1 then Nat.size 1 + 1
    else Nat.size 1) (List.replicate ROUNDS 0) = _
  rw [size_one_eq]
  decide

theorem for_domain_two :
    FeistelNetwork.for_domain 2 = some ⟨List.replicate 8 0, 1, 1⟩ := by
  unfold FeistelNetwork.for_domain FeistelNetwork.bit_len_for
  rw [if_neg (by decide : ¬(2 : Nat) = 0)]
  show FeistelNetwork.with_keys (if Nat.size 2 % 2 = 1 then Nat.size 2 + 1
    else Nat.size 2) (List.replicate ROUNDS 0) = _
  rw [size_two_eq]
  decide

theorem from_seed_genW2 :
    Wordle.from_seed ["aa", "bb"] 2 seed0 = some genW2 := by
  unfold Wordle.from_seed
  rw [show (["aa", "bb"] : List String).length = 2 from rfl, for_domain_two]
  rfl

theorem from_seed_genAdv :
    Wordle.from_seed ["a"] 4 seed0 = some genAdv := by
  unfold Wordle.from_seed
  rw [show (["a"] : List String).length = 1 from rfl, for_domain_one]
  rfl

theorem from_seed_genZW :
    Wordle.from_seed ["a"] 0 seed0 = some genZW := by
  unfold Wordle.from_seed
  rw [show (["a"] : List String).length = 1 from rfl, for_domain_one]
  rfl

/-- C6 (amended): for every constructed generator with a nonzero window
length, every round hash and digest function, and every day whose local
index `day % window_len` is below the item count (in particular every day
when `window_len ≤ N`), the cycle walk reaches an in-range index within
`2 ^ bit_width` iterations, and `get` returns an item. -/
theorem get_terminates (F : Nat → Nat → Nat) (sha : List Nat → List Nat)
    (words : List String) (wl : Nat) (seed : List Nat) (gen : Wordle)
    (fuel day : Nat)
    (hgen : Wordle.from_seed words wl seed = some gen)
    (h0 : wl ≠ 0)
    (hloc : day % wl < words.length)
    (hfuel : 2 ^ (2 * gen.network.upper_shift) ≤ fuel) :
    ∃ i, (gen.getIdx F sha fuel day).2 = some i ∧ i < words.length ∧
      ∃ t, (gen.get F sha fuel day).2 = some t :=
  getIdx_total_aux F sha words wl seed gen fuel day hgen h0 hloc hfuel

theorem get_terminates_witness :
    ∃ i, (genW2.getIdx testF testSha 4 5).2 = some i ∧ i < 2 ∧
      ∃ t, (genW2.get testF testSha 4 5).2 = some t := by
  have h := get_terminates testF testSha ["aa", "bb"] 2 seed0 genW2 4 5
    from_seed_genW2 (by decide) (by decide) (by decide)
  simpa using h

/-- C2: for a generator whose `window_len` equals the item count `N`, and any
window `w`, the `N` days of that window are mapped by `get` (through
cycle-walking) onto the list indices `[0, N)` bijectively: every day gets an
index, no two days of the window share one, and every index is hit. -/
theorem window_exhaustive (F : Nat → Nat → Nat) (sha : List Nat → List Nat)
    (words : List String) (seed : List Nat) (gen : Wordle) (w fuel : Nat)
    (hgen : Wordle.from_seed words words.length seed = some gen)
    (hfuel : 2 ^ (2 * gen.network.upper_shift) ≤ fuel) :
    (∀ r, r < words.length → ∃ i, i < words.length ∧
        (gen.getIdx F sha fuel (w * words.length + r)).2 = some i) ∧
    (∀ r1 r2, r1 < words.length → r2 < words.length →
        (gen.getIdx F sha fuel (w * words.length + r1)).2 =
          (gen.getIdx F sha fuel (w * words.length + r2)).2 → r1 = r2) ∧
    (∀ i, i < words.length → ∃ r, r < words.length ∧
        (gen.getIdx F sha fuel (w * words.length + r)).2 = some i) := by
  obtain ⟨hw, hl, -, -, hm, hs64, hn0, hnM⟩ := from_seed_spec hgen
  have hwl : gen.window_len ≠ 0 := by rw [hl]; omega
  have hm' : (gen.update_window sha w).network.lower_mask =
      2 ^ (gen.update_window sha w).network.upper_shift - 1 := hm
  have hs64' : 2 * (gen.update_window sha w).network.upper_shift ≤ 64 := hs64
  have hmaps : ∀ x, x < 2 ^ (2 * gen.network.upper_shift) →
      (gen.update_window sha w).network.permute F x <
        2 ^ (2 * gen.network.upper_shift) :=
    fun x hx => permute_lt F _ hm' hs64' hx
  have hinj : ∀ x y, x < 2 ^ (2 * gen.network.upper_shift) →
      y < 2 ^ (2 * gen.network.upper_shift) →
      (gen.update_window sha w).network.permute F x =
        (gen.update_window sha w).network.permute F y → x = y :=
    fun x y hx hy hxy =>
      permute_injOn F _ hm' hs64' (Set.mem_Iio.mpr hx) (Set.mem_Iio.mpr hy) hxy
  have hNM : words.length ≤ 2 ^ (2 * gen.network.upper_shift) :=
    Nat.le_of_lt hnM
  have hdiv : ∀ r, r < words.length →
      (w * words.length + r) / gen.window_len = w := by
    intro r hr
    rw [hl, show w * words.length + r = words.length * w + r by ring,
      Nat.mul_add_div hn0, Nat.div_eq_of_lt hr]
    omega
  have hmod : ∀ r, r < words.length →
      (w * words.length + r) % gen.window_len = r := by
    intro r hr
    rw [hl, show w * words.length + r = words.length * w + r by ring,
      Nat.mul_add_mod, Nat.mod_eq_of_lt hr]
  have hkey : ∀ r, r < words.length →
      (gen.getIdx F sha fuel (w * words.length + r)).2 =
        cycleWalk ((gen.update_window sha w).network.permute F)
          words.length fuel
          ((gen.update_window sha w).network.permute F r) := by
    intro r hr
    rw [getIdx_eq_walk F sha gen fuel _ hwl]
    show cycleWalk
        ((gen.update_window sha
          ((w * words.length + r) / gen.window_len)).network.permute F)
        gen.words.length fuel
        ((gen.update_window sha
          ((w * words.length + r) / gen.window_len)).network.permute F
          ((w * words.length + r) % gen.window_len)) = _
    rw [hdiv r hr, hmod r hr, hw]
  have hex : ∀ r, r < words.length →
      ∃ y, (gen.getIdx F sha fuel (w * words.length + r)).2 = some y ∧
        y < words.length := by
    intro r hr
    obtain ⟨y, hy, hyN⟩ := cycleWalk_total
      ((gen.update_window sha w).network.permute F)
      (2 ^ (2 * gen.network.upper_shift)) words.length hmaps hinj hNM r hr
      fuel hfuel
    exact ⟨y, by rw [hkey r hr]; exact hy, hyN⟩
  have hinj2 : ∀ r1 r2, r1 < words.length → r2 < words.length →
      (gen.getIdx F sha fuel (w * words.length + r1)).2 =
        (gen.getIdx F sha fuel (w * words.length + r2)).2 → r1 = r2 := by
    intro r1 r2 h1 h2 heq
    obtain ⟨y1, hy1, -⟩ := hex r1 h1
    obtain ⟨y2, hy2, -⟩ := hex r2 h2
    have hyy : y1 = y2 := by
      rw [hy1, hy2] at heq
      exact (Option.some.injEq _ _).mp heq
    subst hyy
    have w1 := hy1
    have w2 := hy2
    rw [hkey r1 h1] at w1
    rw [hkey r2 h2] at w2
    exact cycleWalk_inj ((gen.update_window sha w).network.permute F)
      (2 ^ (2 * gen.network.upper_shift)) words.length hmaps hinj hNM
      r1 r2 y1 h1 h2 fuel fuel w1 w2
  refine ⟨fun r hr => (hex r hr).imp fun y hy => ⟨hy.2, hy.1⟩, hinj2, ?_⟩
  have himage : (Finset.range words.length).image
      (fun r => ((gen.getIdx F sha fuel (w * words.length + r)).2).getD 0) =
      Finset.range words.length := by
    apply Finset.eq_of_subset_of_card_le
    · intro y hy
      obtain ⟨r, hr, rfl⟩ := Finset.mem_image.mp hy
      obtain ⟨i, hi, hiN⟩ := hex r (Finset.mem_range.mp hr)
      rw [hi]
      exact Finset.mem_range.mpr (by simpa using hiN)
    · rw [Finset.card_image_of_injOn]
      rw [Finset.coe_range]
      intro r1 h1 r2 h2 heq
      have h1' := Set.mem_Iio.mp h1
      have h2' := Set.mem_Iio.mp h2
      obtain ⟨i1, hi1, -⟩ := hex r1 h1'
      obtain ⟨i2, hi2, -⟩ := hex r2 h2'
      simp only at heq
      rw [hi1, hi2] at heq
      simp only [Option.getD_some] at heq
      exact hinj2 r1 r2 h1' h2' (by rw [hi1, hi2, heq])
  intro i hi
  have hmem : i ∈ (Finset.range words.length).image
      (fun r => ((gen.getIdx F sha fuel (w * words.length + r)).2).getD 0) := by
    rw [himage]
    exact Finset.mem_range.mpr hi
  obtain ⟨r, hr, hri⟩ := Finset.mem_image.mp hmem
  obtain ⟨y, hy, -⟩ := hex r (Finset.mem_range.mp hr)
  refine ⟨r, Finset.mem_range.mp hr, ?_⟩
  rw [hy]
  rw [hy] at hri
  simp only [Option.getD_some] at hri
  rw [hri]

theorem window_exhaustive_witness :
    (∀ r, r < 2 → ∃ i, i < 2 ∧
        (genW2.getIdx testF testSha 4 (7 * 2 + r)).2 = some i) ∧
    (∀ r1 r2, r1 < 2 → r2 < 2 →
        (genW2.getIdx testF testSha 4 (7 * 2 + r1)).2 =
          (genW2.getIdx testF testSha 4 (7 * 2 + r2)).2 → r1 = r2) ∧
    (∀ i, i < 2 → ∃ r, r < 2 ∧
        (genW2.getIdx testF testSha 4 (7 * 2 + r)).2 = some i) := by
  have h := window_exhaustive testF testSha ["aa", "bb"] seed0 genW2 7 4
    (by rw [show (["aa", "bb"] : List String).length = 2 from rfl]
        exact from_seed_genW2)
    (by decide)
  simpa using h

theorem from_seed_one_word (wl : Nat) :
    Wordle.from_seed ["a"] wl seed0 =
      some ⟨["a"], wl, seed0, [], ⟨List.replicate 8 0, 1, 1⟩⟩ := by
  unfold Wordle.from_seed
  rw [show (["a"] : List String).length = 1 from rfl, for_domain_one]
  rfl

/-- C7 (amended): a generator over a single-item list returns that item
whenever its cycle walk produces an index at all, and it is guaranteed to do
so (within the `2 ^ bit_width` budget) for every day whose local index is 0 —
in particular for every day when `window_len = 1`. -/
theorem single_item_get (F : Nat → Nat → Nat) (sha : List Nat → List Nat)
    (t : String) (wl : Nat) (seed : List Nat) (gen : Wordle) (fuel day : Nat)
    (hgen : Wordle.from_seed [t] wl seed = some gen) (h0 : wl ≠ 0) :
    (∀ i, (gen.getIdx F sha fuel day).2 = some i →
      (gen.get F sha fuel day).2 = some t) ∧
    (day % wl = 0 → 2 ^ (2 * gen.network.upper_shift) ≤ fuel →
      (gen.get F sha fuel day).2 = some t) := by
  obtain ⟨hw, hl, -, -, -, -, -, -⟩ := from_seed_spec hgen
  have hwl : gen.window_len ≠ 0 := by rw [hl]; exact h0
  have hN1 : gen.words.length = 1 := by rw [hw]; rfl
  have hpart1 : ∀ i, (gen.getIdx F sha fuel day).2 = some i →
      (gen.get F sha fuel day).2 = some t := by
    intro i hi
    have hwalk : cycleWalk
        ((gen.update_window sha (day / gen.window_len)).network.permute F)
        gen.words.length fuel
        ((gen.update_window sha (day / gen.window_len)).network.permute F
          (day % gen.window_len)) = some i := by
      rw [getIdx_eq_walk F sha gen fuel day hwl] at hi
      exact hi
    obtain ⟨k, -, -, hiN, -⟩ := cycleWalk_spec _ _ fuel _ i hwalk
    have hi0 : i = 0 := by omega
    rw [get_snd_eq, hi, Option.some_bind,
      (getIdx_fst_spec F sha gen fuel day).1, hw, hi0]
    rfl
  refine ⟨hpart1, fun hday hfuel => ?_⟩
  obtain ⟨i, hi, -, -⟩ := getIdx_total_aux F sha [t] wl seed gen fuel day
    hgen h0 (by rw [hday]; exact Nat.one_pos) hfuel
  exact hpart1 i hi

theorem single_item_get_witness :
    (∀ i, ((⟨["a"], 3, seed0, [], ⟨List.replicate 8 0, 1, 1⟩⟩ :
        Wordle).getIdx testF testSha 4 6).2 = some i →
      ((⟨["a"], 3, seed0, [], ⟨List.replicate 8 0, 1, 1⟩⟩ :
        Wordle).get testF testSha 4 6).2 = some "a") ∧
    ((6 : Nat) % 3 = 0 → 2 ^ (2 * (1 : Nat)) ≤ 4 →
      ((⟨["a"], 3, seed0, [], ⟨List.replicate 8 0, 1, 1⟩⟩ :
        Wordle).get testF testSha 4 6).2 = some "a") :=
  single_item_get testF testSha "a" 3 seed0 _ 4 6 (from_seed_one_word 3)
    (by decide)

/-- C7 (counterexample): on the single-item generator `from_seed(["a"], 4,
seed0)` with the adversarial round hash `advF` and digest `advSha`, the
derived permutation fixes the out-of-range index 1, so for day 1 (local index
1) the cycle walk never reaches index 0 and `get` produces no item even with
a budget of 100 iterations. -/
theorem single_item_divergent :
    Wordle.from_seed ["a"] 4 seed0 = some genAdv ∧
    (genAdv.update_window advSha 0).network.permute advF 1 = 1 ∧
    (genAdv.get advF advSha 100 1).2 = none :=
  ⟨from_seed_genAdv, by decide, by decide⟩

/-- C6 (counterexample): same adversarial instance; the claimed bound of
`2 ^ bit_width = 4` walk iterations is exhausted without reaching an
in-range index (indeed the walk revisits the fixed point 1 forever). -/
theorem cycle_walk_unbounded :
    Wordle.from_seed ["a"] 4 seed0 = some genAdv ∧
    (genAdv.update_window advSha 0).network.permute advF 1 = 1 ∧
    (genAdv.getIdx advF advSha 4 1).2 = none :=
  ⟨from_seed_genAdv, by decide, by decide⟩

/-- C5 (counterexample): construction with a zero window length succeeds —
no `ZeroWindowLength` validation exists — and the very first `get` then
fails (the `day / self.window_len` division panics). -/
theorem zero_window_accepted :
    Wordle.from_seed ["a"] 0 seed0 = some genZW ∧
    (genZW.getIdx testF testSha 5 0).2 = none ∧
    (genZW.get testF testSha 5 0).2 = none :=
  ⟨from_seed_genZW, by decide, by decide⟩

/-- C5 (amended): a zero window length is not rejected at construction —
construction succeeds or fails independently of the window length — and the
failure instead happens inside every `get` call, which returns nothing and
leaves the state untouched. -/
theorem zero_window_fails_mid_query (F : Nat → Nat → Nat)
    (sha : List Nat → List Nat) (words : List String) (seed : List Nat)
    (gen : Wordle) (fuel day : Nat)
    (hgen : Wordle.from_seed words 0 seed = some gen) :
    (gen.getIdx F sha fuel day).2 = none ∧
    (gen.get F sha fuel day).2 = none ∧
    (gen.getIdx F sha fuel day).1 = gen ∧
    ∀ wl, (Wordle.from_seed words wl seed).isSome =
      (Wordle.from_seed words 0 seed).isSome := by
  obtain ⟨-, hl, -, -, -, -, -, -⟩ := from_seed_spec hgen
  have hz := getIdx_zero_window F sha gen fuel day hl
  have hsnd : (gen.getIdx F sha fuel day).2 = none := by rw [hz]
  refine ⟨hsnd, ?_, by rw [hz], ?_⟩
  · rw [get_snd_eq, hsnd]
    rfl
  · intro wl
    unfold Wordle.from_seed
    cases FeistelNetwork.for_domain words.length <;> rfl

theorem zero_window_fails_mid_query_witness :
    (genZW.getIdx advF advSha 7 3).2 = none ∧
    (genZW.get advF advSha 7 3).2 = none ∧
    (genZW.getIdx advF advSha 7 3).1 = genZW ∧
    ∀ wl, (Wordle.from_seed ["a"] wl seed0).isSome =
      (Wordle.from_seed ["a"] 0 seed0).isSome :=
  zero_window_fails_mid_query advF advSha ["a"] seed0 genZW 7 3
    from_seed_genZW

/-- C3: `get` is deterministic and order-independent.  First conjunct: on a
generator with a fresh (reset) hasher, the answer for a day is unchanged by
any prior sequence of `get` calls (the rekeying state is not observable).
Second conjunct: two generators constructed from the same item list, window
length and seed return identical items for every day. -/
theorem get_order_independent (F : Nat → Nat → Nat)
    (sha : List Nat → List Nat) (gen : Wordle) (ds : List Nat)
    (fuel' fuel day : Nat) (h : gen.hasher = []) :
    ((Wordle.get F sha
        (ds.foldl (fun g d => (g.getIdx F sha fuel' d).1) gen) fuel day).2 =
      (gen.get F sha fuel day).2) ∧
    (∀ (words : List String) (wl : Nat) (seed : List Nat) (g1 g2 : Wordle),
      Wordle.from_seed words wl seed = some g1 →
      Wordle.from_seed words wl seed = some g2 →
      (g1.get F sha fuel day).2 = (g2.get F sha fuel day).2) := by
  constructor
  · have key : ∀ (ds : List Nat) (g : Wordle),
        g.words = gen.words → g.window_len = gen.window_len →
        g.seed = gen.seed → g.hasher = [] →
        g.network.upper_shift = gen.network.upper_shift →
        g.network.lower_mask = gen.network.lower_mask →
        (ds.foldl (fun g d => (g.getIdx F sha fuel' d).1) g).words =
            gen.words ∧
        (ds.foldl (fun g d => (g.getIdx F sha fuel' d).1) g).window_len =
            gen.window_len ∧
        (ds.foldl (fun g d => (g.getIdx F sha fuel' d).1) g).seed =
            gen.seed ∧
        (ds.foldl (fun g d => (g.getIdx F sha fuel' d).1) g).hasher = [] ∧
        (ds.foldl (fun g d =>
            (g.getIdx F sha fuel' d).1) g).network.upper_shift =
          gen.network.upper_shift ∧
        (ds.foldl (fun g d =>
            (g.getIdx F sha fuel' d).1) g).network.lower_mask =
          gen.network.lower_mask := by
      intro ds
      induction ds with
      | nil => exact fun g hw hl hs hh hu hm => ⟨hw, hl, hs, hh, hu, hm⟩
      | cons d ds ih =>
          intro g hw hl hs hh hu hm
          obtain ⟨fw, fl, fs, fu, fm, fh⟩ := getIdx_fst_spec F sha g fuel' d
          exact ih ((g.getIdx F sha fuel' d).1) (fw.trans hw) (fl.trans hl)
            (fs.trans hs) (fh hh) (fu.trans hu) (fm.trans hm)
    obtain ⟨kw, kl, ks, kh, ku, km⟩ := key ds gen rfl rfl rfl h rfl rfl
    have hsnd := getIdx_snd_congr F sha
      (ds.foldl (fun g d => (g.getIdx F sha fuel' d).1) gen) gen fuel day
      kw kl ks (by rw [kh, h]) ku km
    rw [get_snd_eq, get_snd_eq, hsnd,
      (getIdx_fst_spec F sha
        (ds.foldl (fun g d => (g.getIdx F sha fuel' d).1) gen) fuel day).1,
      (getIdx_fst_spec F sha gen fuel day).1, kw]
  · intro words wl seed g1 g2 h1 h2
    have : g1 = g2 := by
      have := h1.symm.trans h2
      exact (Option.some.injEq _ _).mp this
    rw [this]

theorem get_order_independent_witness :
    ((Wordle.get testF testSha
        (([0, 3, 5] : List Nat).foldl
          (fun g d => (g.getIdx testF testSha 4 d).1) genW2) 4 1).2 =
      (genW2.get testF testSha 4 1).2) ∧
    (∀ (words : List String) (wl : Nat) (seed : List Nat) (g1 g2 : Wordle),
      Wordle.from_seed words wl seed = some g1 →
      Wordle.from_seed words wl seed = some g2 →
      (g1.get testF testSha 4 1).2 = (g2.get testF testSha 4 1).2) :=
  get_order_independent testF testSha genW2 [0, 3, 5] 4 4 1 rfl

/-- C10: a completed `get` call leaves the word list, window length and seed
unchanged, leaves the hasher in its freshly-constructed (reset) state, keeps
the engine geometry, overwrites the round keys purely from the seed and the
window number, and its output never depends on the round keys held before
the call. -/
theorem get_frame_effect (F : Nat → Nat → Nat) (sha : List Nat → List Nat)
    (gen : Wordle) (fuel day : Nat) (h0 : gen.window_len ≠ 0)
    (hh : gen.hasher = []) :
    (gen.getIdx F sha fuel day).1.words = gen.words ∧
    (gen.getIdx F sha fuel day).1.window_len = gen.window_len ∧
    (gen.getIdx F sha fuel day).1.seed = gen.seed ∧
    (gen.getIdx F sha fuel day).1.hasher = [] ∧
    (gen.getIdx F sha fuel day).1.network.upper_shift =
      gen.network.upper_shift ∧
    (gen.getIdx F sha fuel day).1.network.lower_mask =
      gen.network.lower_mask ∧
    (gen.getIdx F sha fuel day).1.network.keys =
      toKeys (sha (gen.seed ++ natToBytesLE 8 (day / gen.window_len))) ∧
    ∀ keys', ((Wordle.mk gen.words gen.window_len gen.seed gen.hasher
        ⟨keys', gen.network.upper_shift, gen.network.lower_mask⟩).getIdx
          F sha fuel day).2 =
      (gen.getIdx F sha fuel day).2 := by
  rw [getIdx_eq_walk F sha gen fuel day h0]
  refine ⟨rfl, rfl, rfl, rfl, rfl, rfl, ?_, ?_⟩
  · show toKeys (sha (gen.hasher ++ gen.seed ++
      natToBytesLE 8 (day / gen.window_len))) = _
    rw [hh, List.nil_append]
  · intro keys'
    have := getIdx_snd_congr F sha
      (Wordle.mk gen.words gen.window_len gen.seed gen.hasher
        ⟨keys', gen.network.upper_shift, gen.network.lower_mask⟩) gen
      fuel day rfl rfl rfl rfl rfl rfl
    rw [getIdx_eq_walk F sha gen fuel day h0] at this
    exact this

theorem get_frame_effect_witness :
    (genW2.getIdx testF testSha 4 5).1.words = genW2.words ∧
    (genW2.getIdx testF testSha 4 5).1.window_len = genW2.window_len ∧
    (genW2.getIdx testF testSha 4 5).1.seed = genW2.seed ∧
    (genW2.getIdx testF testSha 4 5).1.hasher = [] ∧
    (genW2.getIdx testF testSha 4 5).1.network.upper_shift =
      genW2.network.upper_shift ∧
    (genW2.getIdx testF testSha 4 5).1.network.lower_mask =
      genW2.network.lower_mask ∧
    (genW2.getIdx testF testSha 4 5).1.network.keys =
      toKeys (testSha (genW2.seed ++ natToBytesLE 8 (5 / genW2.window_len))) ∧
    ∀ keys', ((Wordle.mk genW2.words genW2.window_len genW2.seed genW2.hasher
        ⟨keys', genW2.network.upper_shift, genW2.network.lower_mask⟩).getIdx
          testF testSha 4 5).2 =
      (genW2.getIdx testF testSha 4 5).2 :=
  get_frame_effect testF testSha genW2 4 5 (by decide) rfl

/-- C4 (counterexample): `bit_len_for(4)` returns 4, although 2 is an even
bit width with `2 ^ 2 ≥ 4` that is smaller — the result is not the smallest
even `b` with `2 ^ b ≥ domain_size`. -/
theorem bit_len_for_not_minimal :
    FeistelNetwork.bit_len_for 4 = some 4 ∧
    2 % 2 = 0 ∧ (4 : Nat) ≤ 2 ^ 2 ∧ 2 < 4 := by
  refine ⟨?_, by decide, by decide, by decide⟩
  unfold FeistelNetwork.bit_len_for
  rw [if_neg (by decide : ¬(4 : Nat) = 0)]
  show some (if Nat.size 4 % 2 = 1 then Nat.size 4 + 1 else Nat.size 4) =
    some 4
  rw [show Nat.size 4 = 3 from
    size_value (by decide) (by decide) (by decide)]
  decide

/-- C4 (amended): `bit_len_for` rejects a domain size of 0 and otherwise
returns the smallest even bit width `b` with `2 ^ b` strictly greater than
`domain_size` (equivalently `2 ^ b ≥ domain_size + 1`); on sizes that are
not powers of two with an even exponent this agrees with the claimed
"smallest even `b` with `2 ^ b ≥ domain_size`", and in particular it returns
2 for size 2 and 10 for size 347. -/
theorem bit_len_for_minimal (n : Nat) (h : 0 < n) :
    FeistelNetwork.bit_len_for 0 = none ∧
    ∃ b, FeistelNetwork.bit_len_for n = some b ∧ b % 2 = 0 ∧ n < 2 ^ b ∧
      ∀ c, c % 2 = 0 → n < 2 ^ c → b ≤ c := by
  refine ⟨rfl, ?_⟩
  unfold FeistelNetwork.bit_len_for
  rw [if_neg (Nat.pos_iff_ne_zero.mp h)]
  show ∃ b, some (if Nat.size n % 2 = 1 then Nat.size n + 1
    else Nat.size n) = some b ∧ _
  by_cases hp : Nat.size n % 2 = 1
  · rw [if_pos hp]
    refine ⟨Nat.size n + 1, rfl, by omega, ?_, ?_⟩
    · exact Nat.lt_of_lt_of_le (Nat.lt_size_self n)
        (Nat.pow_le_pow_right (by omega) (by omega))
    · intro c hc hnc
      have := Nat.size_le.mpr hnc
      omega
  · rw [if_neg hp]
    exact ⟨Nat.size n, rfl, by omega, Nat.lt_size_self n,
      fun c _ hnc => Nat.size_le.mpr hnc⟩

theorem bit_len_for_minimal_witness :
    (0 : Nat) < 347 ∧
    (FeistelNetwork.bit_len_for 0 = none ∧
      ∃ b, FeistelNetwork.bit_len_for 347 = some b ∧ b % 2 = 0 ∧
        347 < 2 ^ b ∧ ∀ c, c % 2 = 0 → 347 < 2 ^ c → b ≤ c) :=
  ⟨by decide, bit_len_for_minimal 347 (by decide)⟩

/-- C8: engine construction succeeds exactly for the even bit widths in
`(0, 64]`; it fails (the `InvalidDomain` panic) exactly when the width is
zero, odd, or above 64. -/
theorem with_keys_validates (b : Nat) (keys : List Nat) :
    (FeistelNetwork.with_keys b keys).isSome ↔
      0 < b ∧ b ≤ 64 ∧ b % 2 = 0 := by
  unfold FeistelNetwork.with_keys
  split
  · rename_i hc
    simpa using hc
  · rename_i hc
    simpa using hc

/-! ## The spec's reference Feistel definition (claim C9) -/

/-- The round loop exactly as the spec words it: for each round key `k` in
order, `f = round_function(lower, k) & lower_mask`; `new_lower = upper xor f`;
`upper = lower`; `lower = new_lower`. -/
def permuteSpecRounds (F : Nat → Nat → Nat) (lower_mask : Nat) :
    List Nat → Nat → Nat → Nat × Nat
  | [], upper, lower => (upper, lower)
  | k :: ks, upper, lower =>
      permuteSpecRounds F lower_mask ks lower (upper ^^^ (F lower k &&& lower_mask))

/-- The spec's reference description of `permute`: split the input into
`upper = input >> upper_shift` and `lower = input & lower_mask`, run the
rounds, and return `(lower << upper_shift) | upper`. -/
def permuteSpec (F : Nat → Nat → Nat) (net : FeistelNetwork)
    (input : Nat) : Nat :=
  let upper := input >>> net.upper_shift
  let lower := input &&& net.lower_mask
  let p := permuteSpecRounds F net.lower_mask net.keys upper lower
  (p.2 <<< net.upper_shift) ||| p.1

theorem runRounds_eq_specRounds (F : Nat → Nat → Nat)
    (net : FeistelNetwork) :
    ∀ (ks : List Nat) (u l : Nat),
      runRounds F net ks (u, l) =
        permuteSpecRounds F net.lower_mask ks u l := by
  intro ks
  induction ks with
  | nil => exact fun u l => rfl
  | cons k ks ih => exact fun u l => ih l (u ^^^ net.round F l k)

/-- C9: on every in-range input and every key array, the implementation's
`permute` computes exactly the reference Feistel definition of the spec. -/
theorem permute_matches_reference (F : Nat → Nat → Nat) (b : Nat)
    (keys : List Nat) (net : FeistelNetwork) (input : Nat)
    (hlen : keys.length = ROUNDS)
    (hnet : FeistelNetwork.with_keys b keys = some net)
    (hin : input < 2 ^ b) :
    net.permute F input = permuteSpec F net input := by
  obtain ⟨h0, h64, heven, rfl⟩ := with_keys_eq hnet
  have hdiv : 2 * (b / 2) = b := by omega
  have hm : (FeistelNetwork.mk keys (b / 2)
      (2 ^ (b / 2) - 1)).lower_mask =
    2 ^ (FeistelNetwork.mk keys (b / 2) (2 ^ (b / 2) - 1)).upper_shift - 1 :=
    rfl
  have hin' : input < 2 ^ (2 * (FeistelNetwork.mk keys (b / 2)
      (2 ^ (b / 2) - 1)).upper_shift) := by
    show input < 2 ^ (2 * (b / 2))
    rw [hdiv]
    exact hin
  have hb := runRounds_lt F _ hm
    (FeistelNetwork.mk keys (b / 2) (2 ^ (b / 2) - 1)).keys
    (input >>> (b / 2), input &&& (2 ^ (b / 2) - 1))
    (upper_half_lt _ hin') (lower_half_lt _ hm input)
  rw [permute_eq_runRounds]
  show (runRounds F _ keys (input >>> (b / 2), input &&& (2 ^ (b / 2) - 1))).2
      <<< (b / 2) % 2 ^ 64 |||
    (runRounds F _ keys (input >>> (b / 2), input &&& (2 ^ (b / 2) - 1))).1 =
    (permuteSpecRounds F (2 ^ (b / 2) - 1) keys (input >>> (b / 2))
      (input &&& (2 ^ (b / 2) - 1))).2 <<< (b / 2) |||
    (permuteSpecRounds F (2 ^ (b / 2) - 1) keys (input >>> (b / 2))
      (input &&& (2 ^ (b / 2) - 1))).1
  rw [show permuteSpecRounds F (2 ^ (b / 2) - 1) keys (input >>> (b / 2))
      (input &&& (2 ^ (b / 2) - 1)) =
      runRounds F (FeistelNetwork.mk keys (b / 2) (2 ^ (b / 2) - 1)) keys
        (input >>> (b / 2), input &&& (2 ^ (b / 2) - 1)) from
    (runRounds_eq_specRounds F (FeistelNetwork.mk keys (b / 2)
      (2 ^ (b / 2) - 1)) keys (input >>> (b / 2))
      (input &&& (2 ^ (b / 2) - 1))).symm]
  have hlt : (runRounds F (FeistelNetwork.mk keys (b / 2) (2 ^ (b / 2) - 1))
      keys (input >>> (b / 2), input &&& (2 ^ (b / 2) - 1))).2
      <<< (b / 2) < 2 ^ 64 := by
    rw [Nat.shiftLeft_eq]
    calc _ < 2 ^ (b / 2) * 2 ^ (b / 2) :=
          Nat.mul_lt_mul_of_lt_of_le hb.2 (Nat.le_refl _) (Nat.two_pow_pos _)
      _ = 2 ^ (2 * (b / 2)) := by rw [← Nat.pow_add]; ring_nf
      _ ≤ 2 ^ 64 := Nat.pow_le_pow_right (by omega) (by omega)
  rw [Nat.mod_eq_of_lt hlt]

theorem permute_matches_reference_witness :
    (FeistelNetwork.mk [9, 8, 7, 6, 5, 4, 3, 2] 2 3).permute testF 11 =
      permuteSpec testF (FeistelNetwork.mk [9, 8, 7, 6, 5, 4, 3, 2] 2 3) 11 :=
  permute_matches_reference testF 4 [9, 8, 7, 6, 5, 4, 3, 2] _ 11
    (by decide) (by decide) (by decide)
